import Mathlib

set_option maxRecDepth 100000

/-!
Shallow embedding of the `arrs-bitmap` crate (src/bitmap.rs and
src/compute/re_align.rs) and verification of its specification.

A `Buffer` is modelled as a `List Nat` of byte values; reads past the end of
the list return `0`, matching the zero padding the word-aligned allocator
guarantees for the bytes between the logical length and the allocation
boundary.  A Rust function that panics on a violated precondition is modelled
as returning `Option`, with `none` standing for the panic.
-/

namespace ArrsBitmap

/-- Byte `i` of a buffer.  Out-of-range reads yield the zero padding; values
are reduced to `u8` range. -/
def byteAt (buf : List Nat) (i : Nat) : Nat :=
  buf.getD i 0 % 256

/-- Bit `i` of a buffer: byte `i / 8`, bit position `i % 8`, LSB-first
(the addressing used by `Bitmap::get_unchecked`). -/
def bitAt (buf : List Nat) (i : Nat) : Bool :=
  Nat.testBit (byteAt buf (i / 8)) (i % 8)

/-- Little-endian 64-bit word `w` of a byte buffer: the `*const u64` view used
by `Bitmap::slice` / `re_align`. -/
def wordAt (buf : List Nat) (w : Nat) : Nat :=
  byteAt buf (8*w) + 256 * (byteAt buf (8*w+1) + 256 * (byteAt buf (8*w+2) +
    256 * (byteAt buf (8*w+3) + 256 * (byteAt buf (8*w+4) + 256 *
    (byteAt buf (8*w+5) + 256 * (byteAt buf (8*w+6) + 256 * byteAt buf (8*w+7)))))))

/-- `compute::re_align` from src/compute/re_align.rs, as the list of `len`
64-bit words it writes to `dst`, given the source words `src k`.
The loop writes `(src k >> shift) | (src (k+1) << (64 - shift))` (u64
arithmetic, hence the `% 2^64` on the left shift) for `k = 0 .. len-2`, and the
trailing store writes `src (len-1) >> shift`. -/
def re_align (src : Nat → Nat) (len : Nat) (shift : Nat) : List Nat :=
  if len = 0 then []
  else if shift = 0 then (List.range len).map src
  else
    (List.range (len - 1)).map
      (fun k => (src k >>> shift) ||| ((src (k+1) <<< (64 - shift)) % 2^64))
    ++ [src (len - 1) >>> shift]

/-- `Bitmap`: a shared buffer handle plus a bit count. -/
structure Bitmap where
  buf : List Nat
  num_bits : Nat
deriving DecidableEq, Repr

namespace Bitmap

/-- `Bitmap::from_buf`.  `none` models the panic when the buffer cannot hold
`num_bits` bits (`num_bits.next_multiple_of(8) / 8 = ⌈num_bits/8⌉` bytes). -/
def from_buf (buf : List Nat) (num_bits : Nat) : Option Bitmap :=
  let num_bytes := (num_bits + 7) / 8
  if num_bytes ≤ buf.length then some ⟨buf, num_bits⟩ else none

/-- `Bitmap::get_unchecked`: `(byte[i/8] & (1 << (i%8))) != 0`. -/
def get_unchecked (b : Bitmap) (bit_index : Nat) : Bool :=
  (byteAt b.buf (bit_index / 8) &&& (1 <<< (bit_index % 8))) != 0

/-- `Bitmap::get`: bounds-checked accessor. -/
def get (b : Bitmap) (bit_index : Nat) : Option Bool :=
  if bit_index ≥ b.num_bits then none
  else some (b.get_unchecked bit_index)

/-- `Bitmap::slice`.  `none` models the panic when the range is outside the
bitmap.  The `start_bit = 0` branch shares the buffer handle; otherwise a new
`⌈num_bits/8⌉`-byte buffer is filled from the `re_align` word stream (the new
buffer's bytes are the first `num_bytes` bytes of the words `re_align`
writes). -/
def slice (b : Bitmap) (start_bit : Nat) (num_bits : Nat) : Option Bitmap :=
  if start_bit + num_bits ≤ b.num_bits then
    if start_bit = 0 then some ⟨b.buf, num_bits⟩
    else
      let num_bytes := (num_bits + 7) / 8
      let start_word := start_bit / 64
      let shift := start_bit % 64
      let words := re_align (fun k => wordAt b.buf (start_word + k))
        ((num_bits + 63) / 64 + 1) shift
      some ⟨(List.range num_bytes).map
        (fun p => (words.getD (p / 8) 0 >>> (8 * (p % 8))) % 256), num_bits⟩
  else none

/-- One packed byte of `Bitmap::from_bools`: `m` booleans starting at index
`base`, OR-ed in LSB-first (`byte |= bool << j`). -/
def packByte (bools : List Bool) (base : Nat) (m : Nat) : Nat :=
  (List.range m).foldl (fun byte j => byte ||| ((bools.getD (base + j) false).toNat <<< j)) 0

/-- `Bitmap::from_bools`: `num_bits / 8` full bytes, then one remainder byte
holding the last `num_bits % 8` booleans when `num_bits % 8 > 0`. -/
def from_bools (bools : List Bool) : Bitmap :=
  let num_bits := bools.length
  let full := (List.range (num_bits / 8)).map (fun g => packByte bools (8 * g) 8)
  ⟨if num_bits % 8 > 0 then full ++ [packByte bools (8 * (num_bits / 8)) (num_bits % 8)]
    else full, num_bits⟩

end Bitmap

/-- Rust `usize::next_multiple_of`: smallest multiple of `k` that is `≥ n`. -/
def nextMultipleOf (n k : Nat) : Nat :=
  (n + k - 1) / k * k

/-- Scanner core, modelled from the spec (see `set_ranges_model`): walk the
bit sequence keeping the start of the currently open run; close the run on an
unset bit or at the end of the input. -/
def scanAux : List Bool → Nat → Option Nat → List (Nat × Nat)
  | [], _, none => []
  | [], pos, some s => [(s, pos)]
  | b :: rest, pos, none =>
      if b then scanAux rest (pos + 1) (some pos) else scanAux rest (pos + 1) none
  | b :: rest, pos, some s =>
      if b then scanAux rest (pos + 1) (some s)
      else (s, pos) :: scanAux rest (pos + 1) none

/-- Modelled from the spec: `compute::set_ranges` (the RangeScanner) is not in
src/; per the spec it takes a byte buffer and a byte length `len` and returns
"the ascending list of maximal `BitRange`s of set bits across the entire
`len`-byte span", half-open `[start, end)` bit-index pairs. -/
def set_ranges_model (buf : List Nat) (len : Nat) : List (Nat × Nat) :=
  scanAux ((List.range (8 * len)).map (fun i => bitAt buf i)) 0 none

/-- Bit `i` lies in one of the ranges of `rs`. -/
def covers (rs : List (Nat × Nat)) (i : Nat) : Prop :=
  ∃ r ∈ rs, r.1 ≤ i ∧ i < r.2

/-- The ranges of `rs` are nonempty, start at or after `lo`, and each
strictly precedes the next with at least one unset bit between them. -/
def GoodFrom : Nat → List (Nat × Nat) → Prop
  | _, [] => True
  | lo, r :: rest => lo ≤ r.1 ∧ r.1 < r.2 ∧ GoodFrom (r.2 + 1) rest

namespace Bitmap

/-- The byte span length `Bitmap::set_ranges` hands to the scanner:
`self.buf.len().next_multiple_of(64)`. -/
def set_ranges_span (b : Bitmap) : Nat :=
  nextMultipleOf b.buf.length 64

/-- `Bitmap::set_ranges`: empty for an empty bitmap, otherwise the scanner's
output over the rounded-up span. -/
def set_ranges (b : Bitmap) : List (Nat × Nat) :=
  if b.num_bits = 0 then []
  else set_ranges_model b.buf b.set_ranges_span

/-- Number of bits actually scanned by `set_ranges` (zero when the scanner is
never invoked). -/
def scannedBits (b : Bitmap) : Nat :=
  if b.num_bits = 0 then 0 else 8 * b.set_ranges_span

/-- The documented size invariant: the buffer holds at least
`⌈num_bits/8⌉` bytes. -/
def sizeInv (b : Bitmap) : Prop :=
  (b.num_bits + 7) / 8 ≤ b.buf.length

end Bitmap

/-! ### Byte- and word-level lemmas -/

theorem byteAt_lt (buf : List Nat) (i : Nat) : byteAt buf i < 256 :=
  Nat.mod_lt _ (by norm_num)

theorem and_shl_one_ne_zero (x j : Nat) :
    ((x &&& (1 <<< j)) != 0) = Nat.testBit x j := by
  rw [Nat.shiftLeft_eq, Nat.one_mul, Nat.and_two_pow]
  cases h : Nat.testBit x j
  · simp
  · simp [Nat.pos_iff_ne_zero.mp (Nat.two_pow_pos j)]

theorem Bitmap.get_unchecked_eq_bitAt (b : Bitmap) (i : Nat) :
    b.get_unchecked i = bitAt b.buf i := by
  rw [Bitmap.get_unchecked, bitAt, and_shl_one_ne_zero]

theorem Bitmap.get_eq (b : Bitmap) (i : Nat) :
    b.get i = if i < b.num_bits then some (bitAt b.buf i) else none := by
  rw [Bitmap.get, Bitmap.get_unchecked_eq_bitAt]
  rcases Nat.lt_or_ge i b.num_bits with h | h
  · simp [h, Nat.not_le.mpr h]
  · simp [h, Nat.not_lt.mpr h]

theorem testBit_add_mul_256 (a rest m : Nat) (h : a < 256) :
    Nat.testBit (a + 256 * rest) m =
      if m < 8 then Nat.testBit a m else Nat.testBit rest (m - 8) := by
  have h' : a < 2 ^ 8 := by norm_num at h ⊢; exact h
  have := Nat.testBit_mul_pow_two_add rest h' m
  rw [show a + 256 * rest = 2 ^ 8 * rest + a by ring] at *
  exact this

theorem wordAt_testBit (buf : List Nat) (w m : Nat) (hm : m < 64) :
    Nat.testBit (wordAt buf w) m = bitAt buf (64 * w + m) := by
  have e1 : (64 * w + m) / 8 = 8 * w + m / 8 := by omega
  have e2 : (64 * w + m) % 8 = m % 8 := by omega
  rw [bitAt, e1, e2, wordAt]
  rw [testBit_add_mul_256 _ _ _ (byteAt_lt _ _), testBit_add_mul_256 _ _ _ (byteAt_lt _ _),
    testBit_add_mul_256 _ _ _ (byteAt_lt _ _), testBit_add_mul_256 _ _ _ (byteAt_lt _ _),
    testBit_add_mul_256 _ _ _ (byteAt_lt _ _), testBit_add_mul_256 _ _ _ (byteAt_lt _ _),
    testBit_add_mul_256 _ _ _ (byteAt_lt _ _)]
  rcases Nat.lt_or_ge m 8 with h | h
  · rw [if_pos h, show 8 * w + m / 8 = 8 * w from by omega, show m % 8 = m from by omega]
  rcases Nat.lt_or_ge m 16 with h2 | h2
  · rw [if_neg (by omega), if_pos (by omega),
      show 8 * w + m / 8 = 8 * w + 1 from by omega, show m % 8 = m - 8 from by omega]
  rcases Nat.lt_or_ge m 24 with h3 | h3
  · rw [if_neg (by omega), if_neg (by omega), if_pos (by omega),
      show 8 * w + m / 8 = 8 * w + 2 from by omega, show m % 8 = m - 8 - 8 from by omega]
  rcases Nat.lt_or_ge m 32 with h4 | h4
  · rw [if_neg (by omega), if_neg (by omega), if_neg (by omega), if_pos (by omega),
      show 8 * w + m / 8 = 8 * w + 3 from by omega,
      show m % 8 = m - 8 - 8 - 8 from by omega]
  rcases Nat.lt_or_ge m 40 with h5 | h5
  · rw [if_neg (by omega), if_neg (by omega), if_neg (by omega), if_neg (by omega),
      if_pos (by omega), show 8 * w + m / 8 = 8 * w + 4 from by omega,
      show m % 8 = m - 8 - 8 - 8 - 8 from by omega]
  rcases Nat.lt_or_ge m 48 with h6 | h6
  · rw [if_neg (by omega), if_neg (by omega), if_neg (by omega), if_neg (by omega),
      if_neg (by omega), if_pos (by omega),
      show 8 * w + m / 8 = 8 * w + 5 from by omega,
      show m % 8 = m - 8 - 8 - 8 - 8 - 8 from by omega]
  rcases Nat.lt_or_ge m 56 with h7 | h7
  · rw [if_neg (by omega), if_neg (by omega), if_neg (by omega), if_neg (by omega),
      if_neg (by omega), if_neg (by omega), if_pos (by omega),
      show 8 * w + m / 8 = 8 * w + 6 from by omega,
      show m % 8 = m - 8 - 8 - 8 - 8 - 8 - 8 from by omega]
  · rw [if_neg (by omega), if_neg (by omega), if_neg (by omega), if_neg (by omega),
      if_neg (by omega), if_neg (by omega), if_neg (by omega),
      show 8 * w + m / 8 = 8 * w + 7 from by omega,
      show m % 8 = m - 8 - 8 - 8 - 8 - 8 - 8 - 8 from by omega]

theorem wordAt_lt (buf : List Nat) (w : Nat) : wordAt buf w < 2 ^ 64 := by
  have h0 := byteAt_lt buf (8*w)
  have h1 := byteAt_lt buf (8*w+1)
  have h2 := byteAt_lt buf (8*w+2)
  have h3 := byteAt_lt buf (8*w+3)
  have h4 := byteAt_lt buf (8*w+4)
  have h5 := byteAt_lt buf (8*w+5)
  have h6 := byteAt_lt buf (8*w+6)
  have h7 := byteAt_lt buf (8*w+7)
  rw [wordAt]
  omega

/-! ### `re_align` lemmas -/

theorem getD_map_range {α : Type} (f : Nat → α) (n k : Nat) (d : α) (h : k < n) :
    ((List.range n).map f).getD k d = f k := by
  rw [List.getD_eq_getElem?_getD, List.getElem?_map,
    List.getElem?_eq_getElem (by simpa using h)]
  simp

theorem re_align_length (src : Nat → Nat) (len shift : Nat) :
    (re_align src len shift).length = len := by
  rw [re_align]
  rcases Nat.eq_zero_or_pos len with h | h
  · simp [h]
  rcases Nat.eq_zero_or_pos shift with hs | hs
  · simp [Nat.pos_iff_ne_zero.mp h, hs]
  · simp [Nat.pos_iff_ne_zero.mp h, Nat.pos_iff_ne_zero.mp hs]
    omega

theorem re_align_shift_zero (src : Nat → Nat) (len : Nat) :
    re_align src len 0 = (List.range len).map src := by
  rw [re_align]
  rcases Nat.eq_zero_or_pos len with h | h
  · simp [h]
  · simp [Nat.pos_iff_ne_zero.mp h]

theorem re_align_getD_mid (src : Nat → Nat) (len shift k : Nat)
    (hs : shift ≠ 0) (hk : k + 1 < len) :
    (re_align src len shift).getD k 0 =
      (src k >>> shift) ||| ((src (k+1) <<< (64 - shift)) % 2^64) := by
  rw [re_align, if_neg (by omega), if_neg hs, List.getD_eq_getElem?_getD,
    List.getElem?_append_left (by simp; omega)]
  rw [List.getElem?_map, List.getElem?_eq_getElem (by simp; omega)]
  simp

theorem re_align_getD_last (src : Nat → Nat) (len shift : Nat)
    (hs : shift ≠ 0) (hl : 1 ≤ len) :
    (re_align src len shift).getD (len - 1) 0 = src (len - 1) >>> shift := by
  rw [re_align, if_neg (by omega), if_neg hs, List.getD_eq_getElem?_getD,
    List.getElem?_append_right (by simp)]
  simp

theorem testBit_of_lt_two_pow_le {x n j : Nat} (hx : x < 2 ^ n) (hj : n ≤ j) :
    Nat.testBit x j = false :=
  Nat.testBit_lt_two_pow (Nat.lt_of_lt_of_le hx (Nat.pow_le_pow_right (by omega) hj))

theorem re_align_testBit_mid (src : Nat → Nat) (len shift k m : Nat)
    (h1 : 1 ≤ shift) (h2 : shift ≤ 63) (hsrc : ∀ j, src j < 2 ^ 64)
    (hk : k + 1 < len) (hm : m < 64) :
    Nat.testBit ((re_align src len shift).getD k 0) m =
      if m + shift < 64 then Nat.testBit (src k) (m + shift)
      else Nat.testBit (src (k+1)) (m + shift - 64) := by
  rw [re_align_getD_mid src len shift k (by omega) hk]
  rcases Nat.lt_or_ge (m + shift) 64 with h | h
  · rw [if_pos h, Nat.testBit_or, Nat.testBit_mod_two_pow, Nat.testBit_shiftLeft,
      Nat.testBit_shiftRight, show shift + m = m + shift from by omega]
    simp [show ¬ (64 - shift ≤ m) from by omega]
  · rw [if_neg (by omega), Nat.testBit_or, Nat.testBit_mod_two_pow, Nat.testBit_shiftLeft,
      Nat.testBit_shiftRight, show m - (64 - shift) = m + shift - 64 from by omega]
    have hfalse : Nat.testBit (src k) (shift + m) = false :=
      testBit_of_lt_two_pow_le (hsrc k) (by omega)
    simp [hfalse, hm, show 64 - shift ≤ m from by omega]

/-! ### `from_bools` lemmas -/

theorem packByte_succ (bools : List Bool) (base m : Nat) :
    Bitmap.packByte bools base (m + 1) =
      Bitmap.packByte bools base m ||| ((bools.getD (base + m) false).toNat <<< m) := by
  rw [Bitmap.packByte, Bitmap.packByte, List.range_succ, List.foldl_append]
  simp

theorem packByte_lt (bools : List Bool) (base m : Nat) :
    Bitmap.packByte bools base m < 2 ^ m := by
  induction m with
  | zero => simp [Bitmap.packByte]
  | succ m ih =>
      rw [packByte_succ]
      refine Nat.or_lt_two_pow (Nat.lt_of_lt_of_le ih (Nat.pow_le_pow_right (by omega) (by omega))) ?_
      rw [Nat.shiftLeft_eq]
      have : (bools.getD (base + m) false).toNat ≤ 1 := Bool.toNat_le _
      calc (bools.getD (base + m) false).toNat * 2 ^ m ≤ 1 * 2 ^ m :=
            Nat.mul_le_mul_right _ this
        _ < 2 ^ (m + 1) := by rw [Nat.one_mul, Nat.pow_succ]; omega

theorem packByte_testBit (bools : List Bool) (base m j : Nat) :
    Nat.testBit (Bitmap.packByte bools base m) j =
      if j < m then bools.getD (base + j) false else false := by
  induction m with
  | zero => simp [Bitmap.packByte]
  | succ m ih =>
      rw [packByte_succ, Nat.testBit_or, ih, Nat.testBit_shiftLeft,
        Nat.testBit_bool_to_nat]
      rcases Nat.lt_trichotomy j m with h | h | h
      · simp [h, Nat.lt_succ_of_lt h, show ¬ (m ≤ j) from by omega]
      · subst h
        simp [Nat.lt_irrefl, Nat.lt_succ_self]
      · simp [show ¬ (j < m) from by omega, show ¬ (j < m + 1) from by omega,
          show m ≤ j from by omega, show j - m ≠ 0 from by omega]

theorem from_bools_length (bools : List Bool) :
    (Bitmap.from_bools bools).buf.length = (bools.length + 7) / 8 := by
  rw [Bitmap.from_bools]
  by_cases h : bools.length % 8 > 0
  · rw [if_pos h]
    simp
    omega
  · rw [if_neg h]
    simp
    omega

theorem from_bools_getD_full (bools : List Bool) (g : Nat) (hg : g < bools.length / 8) :
    (Bitmap.from_bools bools).buf.getD g 0 = Bitmap.packByte bools (8 * g) 8 := by
  have hmap : ((List.range (bools.length / 8)).map
      (fun g => Bitmap.packByte bools (8 * g) 8)).getD g 0 =
      Bitmap.packByte bools (8 * g) 8 := getD_map_range _ _ _ _ hg
  rw [Bitmap.from_bools]
  by_cases h : bools.length % 8 > 0
  · rw [if_pos h, List.getD_eq_getElem?_getD, List.getElem?_append_left (by simpa using hg),
      ← List.getD_eq_getElem?_getD, hmap]
  · rw [if_neg h]
    exact hmap

theorem from_bools_getD_rem (bools : List Bool) (h : bools.length % 8 ≠ 0) :
    (Bitmap.from_bools bools).buf.getD (bools.length / 8) 0 =
      Bitmap.packByte bools (8 * (bools.length / 8)) (bools.length % 8) := by
  rw [Bitmap.from_bools, if_pos (Nat.pos_of_ne_zero h), List.getD_eq_getElem?_getD,
    List.getElem?_append_right (by simp)]
  simp

theorem from_bools_bitAt (bools : List Bool) (i : Nat) (hi : i < bools.length) :
    bitAt (Bitmap.from_bools bools).buf i = bools.getD i false := by
  rw [bitAt, byteAt]
  rcases Nat.lt_or_ge (i / 8) (bools.length / 8) with h | h
  · rw [from_bools_getD_full bools (i / 8) h,
      Nat.mod_eq_of_lt (Nat.lt_of_lt_of_le (packByte_lt _ _ _) (by norm_num)),
      packByte_testBit, if_pos (Nat.mod_lt _ (by omega)),
      show 8 * (i / 8) + i % 8 = i from by omega]
  · have he : i / 8 = bools.length / 8 := by omega
    have hr : bools.length % 8 ≠ 0 := by omega
    have hlt : Bitmap.packByte bools (8 * (bools.length / 8)) (bools.length % 8) < 256 := by
      have h1 := packByte_lt bools (8 * (bools.length / 8)) (bools.length % 8)
      have h2 : (2:Nat) ^ (bools.length % 8) ≤ 2 ^ 8 := Nat.pow_le_pow_right (by omega) (by omega)
      norm_num at h2
      omega
    rw [he, from_bools_getD_rem bools hr, Nat.mod_eq_of_lt hlt, packByte_testBit]
    rw [if_pos (show i % 8 < bools.length % 8 from by omega),
      show 8 * (bools.length / 8) + i % 8 = i from by omega]

/-! ### Slice lemmas -/

theorem bitAt_wordBytes (words : List Nat) (nb i : Nat) (hi : i / 8 < nb) :
    bitAt ((List.range nb).map
        (fun p => (words.getD (p / 8) 0 >>> (8 * (p % 8))) % 256)) i =
      Nat.testBit (words.getD (i / 64) 0) (i % 64) := by
  rw [bitAt, byteAt, getD_map_range _ _ _ _ hi,
    show (256:Nat) = 2^8 from by norm_num,
    Nat.testBit_mod_two_pow, Nat.testBit_mod_two_pow, Nat.testBit_shiftRight]
  simp [Nat.mod_lt i (show 0 < 8 from by omega)]
  rw [show i / 8 / 8 = i / 64 from by omega,
    show 8 * (i / 8 % 8) + i % 8 = i % 64 from by omega]

theorem slice_newbuf_bitAt (buf : List Nat) (s n i : Nat) (hi : i < n) :
    bitAt ((List.range ((n + 7) / 8)).map
        (fun p => ((re_align (fun k => wordAt buf (s / 64 + k)) ((n + 63) / 64 + 1)
          (s % 64)).getD (p / 8) 0 >>> (8 * (p % 8))) % 256)) i =
      bitAt buf (s + i) := by
  have h1 : i / 8 < (n + 7) / 8 := by omega
  rw [bitAt_wordBytes _ _ _ h1]
  have hk : i / 64 + 1 < (n + 63) / 64 + 1 := by omega
  by_cases hsh : s % 64 = 0
  · rw [hsh, re_align_shift_zero, getD_map_range _ _ _ _ (by omega),
      wordAt_testBit _ _ _ (Nat.mod_lt i (by omega))]
    congr 1
    omega
  · rw [re_align_testBit_mid _ _ _ _ _ (by omega) (by omega)
      (fun j => wordAt_lt buf _) hk (Nat.mod_lt i (by omega))]
    by_cases hc : i % 64 + s % 64 < 64
    · rw [if_pos hc, wordAt_testBit _ _ _ hc]
      congr 1
      omega
    · rw [if_neg hc, wordAt_testBit _ _ _ (by omega)]
      congr 1
      omega

theorem from_bools_num_bits (bools : List Bool) :
    (Bitmap.from_bools bools).num_bits = bools.length := rfl

theorem packByte_lt_256 (bools : List Bool) (base m : Nat) (hm : m ≤ 8) :
    Bitmap.packByte bools base m < 256 := by
  have h1 := packByte_lt bools base m
  have h2 : (2:Nat) ^ m ≤ 2 ^ 8 := Nat.pow_le_pow_right (by omega) hm
  norm_num at h2
  omega

/-! ### Scanner lemmas -/

theorem scanAux_cons_none_true (rest : List Bool) (pos : Nat) :
    scanAux (true :: rest) pos none = scanAux rest (pos + 1) (some pos) := by
  rw [scanAux]
  simp

theorem scanAux_cons_none_false (rest : List Bool) (pos : Nat) :
    scanAux (false :: rest) pos none = scanAux rest (pos + 1) none := by
  rw [scanAux]
  simp

theorem scanAux_cons_some_true (rest : List Bool) (pos s : Nat) :
    scanAux (true :: rest) pos (some s) = scanAux rest (pos + 1) (some s) := by
  rw [scanAux]
  simp

theorem scanAux_cons_some_false (rest : List Bool) (pos s : Nat) :
    scanAux (false :: rest) pos (some s) =
      (s, pos) :: scanAux rest (pos + 1) none := by
  rw [scanAux]
  simp

theorem goodFrom_mono {lo lo' : Nat} {rs : List (Nat × Nat)} (h : lo' ≤ lo) :
    GoodFrom lo rs → GoodFrom lo' rs := by
  cases rs with
  | nil => intro _; trivial
  | cons r rest =>
      rintro ⟨h1, h2, h3⟩
      exact ⟨Nat.le_trans h h1, h2, h3⟩

theorem goodFrom_mem {lo : Nat} {rs : List (Nat × Nat)} {r : Nat × Nat}
    (h : GoodFrom lo rs) (hr : r ∈ rs) : lo ≤ r.1 ∧ r.1 < r.2 := by
  induction rs generalizing lo with
  | nil => cases hr
  | cons a rest ih =>
      obtain ⟨h1, h2, h3⟩ := h
      rcases List.mem_cons.mp hr with rfl | hmem
      · exact ⟨h1, h2⟩
      · have := ih h3 hmem
        exact ⟨by omega, this.2⟩

theorem goodFrom_distinct {lo : Nat} {rs : List (Nat × Nat)}
    (h : GoodFrom lo rs) {r r' : Nat × Nat} (hr : r ∈ rs) (hr' : r' ∈ rs)
    (hne : r ≠ r') : r.2 < r'.1 ∨ r'.2 < r.1 := by
  induction rs generalizing lo with
  | nil => cases hr
  | cons a rest ih =>
      obtain ⟨h1, h2, h3⟩ := h
      rcases List.mem_cons.mp hr with rfl | hmem
      · rcases List.mem_cons.mp hr' with rfl | hmem'
        · exact absurd rfl hne
        · have := goodFrom_mem h3 hmem'
          left
          omega
      · rcases List.mem_cons.mp hr' with rfl | hmem'
        · have := goodFrom_mem h3 hmem
          right
          omega
        · exact ih h3 hmem hmem'

theorem goodFrom_pairwise {lo : Nat} {rs : List (Nat × Nat)}
    (h : GoodFrom lo rs) :
    List.Pairwise (fun r r' : Nat × Nat => r.2 < r'.1) rs := by
  induction rs generalizing lo with
  | nil => exact List.Pairwise.nil
  | cons a rest ih =>
      obtain ⟨h1, h2, h3⟩ := h
      refine List.Pairwise.cons (fun b hb => ?_) (ih h3)
      have := goodFrom_mem h3 hb
      omega

theorem scanAux_good (l : List Bool) : ∀ pos : Nat,
    GoodFrom pos (scanAux l pos none) ∧
    (∀ s, s < pos → ∃ e rest, scanAux l pos (some s) = (s, e) :: rest ∧
      pos ≤ e ∧ GoodFrom (e + 1) rest) := by
  induction l with
  | nil =>
      intro pos
      exact ⟨trivial, fun s _ => ⟨pos, [], rfl, Nat.le_refl pos, trivial⟩⟩
  | cons b rest ih =>
      intro pos
      constructor
      · cases b with
        | true =>
            rw [scanAux_cons_none_true]
            obtain ⟨e, rest', heq, he, hg⟩ := (ih (pos+1)).2 pos (by omega)
            rw [heq]
            exact ⟨Nat.le_refl pos, by omega, hg⟩
        | false =>
            rw [scanAux_cons_none_false]
            exact goodFrom_mono (by omega) (ih (pos+1)).1
      · intro s hs
        cases b with
        | true =>
            rw [scanAux_cons_some_true]
            obtain ⟨e, rest', heq, he, hg⟩ := (ih (pos+1)).2 s (by omega)
            exact ⟨e, rest', heq, by omega, hg⟩
        | false =>
            rw [scanAux_cons_some_false]
            exact ⟨pos, scanAux rest (pos+1) none, rfl, Nat.le_refl pos,
              (ih (pos+1)).1⟩

theorem scanAux_covers (l : List Bool) : ∀ pos i : Nat,
    (covers (scanAux l pos none) i ↔
      pos ≤ i ∧ i - pos < l.length ∧ l.getD (i - pos) false = true) ∧
    (∀ s, s < pos → (covers (scanAux l pos (some s)) i ↔
      (s ≤ i ∧ i < pos) ∨
      (pos ≤ i ∧ i - pos < l.length ∧ l.getD (i - pos) false = true))) := by
  induction l with
  | nil =>
      intro pos i
      constructor
      · constructor
        · rintro ⟨r, hr, _⟩
          cases hr
        · rintro ⟨_, h2, _⟩
          simp at h2
      · intro s _
        constructor
        · rintro ⟨r, hr, h1, h2⟩
          obtain rfl := List.mem_singleton.mp hr
          exact Or.inl ⟨h1, h2⟩
        · rintro (⟨h1, h2⟩ | ⟨_, h2, _⟩)
          · exact ⟨(s, pos), List.mem_singleton.mpr rfl, h1, h2⟩
          · simp at h2
  | cons b rest ih =>
      intro pos i
      constructor
      · cases b with
        | true =>
            rw [scanAux_cons_none_true, (ih (pos+1) i).2 pos (by omega)]
            constructor
            · rintro (⟨h1, h2⟩ | ⟨h1, h2, h3⟩)
              · have hip : i = pos := by omega
                subst hip
                exact ⟨Nat.le_refl i, by simp, by simp⟩
              · refine ⟨by omega, by simp; omega, ?_⟩
                rw [show i - pos = (i - (pos+1)) + 1 from by omega,
                  List.getD_cons_succ]
                exact h3
            · rintro ⟨h1, h2, h3⟩
              by_cases hip : i = pos
              · exact Or.inl ⟨by omega, by omega⟩
              · refine Or.inr ⟨by omega, by simp at h2; omega, ?_⟩
                rw [show i - pos = (i - (pos+1)) + 1 from by omega,
                  List.getD_cons_succ] at h3
                exact h3
        | false =>
            rw [scanAux_cons_none_false, (ih (pos+1) i).1]
            constructor
            · rintro ⟨h1, h2, h3⟩
              refine ⟨by omega, by simp at h2 ⊢; omega, ?_⟩
              rw [show i - pos = (i - (pos+1)) + 1 from by omega,
                List.getD_cons_succ]
              exact h3
            · rintro ⟨h1, h2, h3⟩
              by_cases hip : i = pos
              · subst hip
                rw [Nat.sub_self, List.getD_cons_zero] at h3
                cases h3
              · refine ⟨by omega, by simp at h2; omega, ?_⟩
                rw [show i - pos = (i - (pos+1)) + 1 from by omega,
                  List.getD_cons_succ] at h3
                exact h3
      · intro s hs
        cases b with
        | true =>
            rw [scanAux_cons_some_true, (ih (pos+1) i).2 s (by omega)]
            constructor
            · rintro (⟨h1, h2⟩ | ⟨h1, h2, h3⟩)
              · by_cases hip : i = pos
                · subst hip
                  exact Or.inr ⟨Nat.le_refl i, by simp, by simp⟩
                · exact Or.inl ⟨h1, by omega⟩
              · refine Or.inr ⟨by omega, by simp; omega, ?_⟩
                rw [show i - pos = (i - (pos+1)) + 1 from by omega,
                  List.getD_cons_succ]
                exact h3
            · rintro (⟨h1, h2⟩ | ⟨h1, h2, h3⟩)
              · exact Or.inl ⟨h1, by omega⟩
              · by_cases hip : i = pos
                · exact Or.inl ⟨by omega, by omega⟩
                · refine Or.inr ⟨by omega, by simp at h2; omega, ?_⟩
                  rw [show i - pos = (i - (pos+1)) + 1 from by omega,
                    List.getD_cons_succ] at h3
                  exact h3
        | false =>
            rw [scanAux_cons_some_false]
            have hcons : covers ((s, pos) :: scanAux rest (pos+1) none) i ↔
                ((s ≤ i ∧ i < pos) ∨ covers (scanAux rest (pos+1) none) i) := by
              constructor
              · rintro ⟨r, hr, h1, h2⟩
                rcases List.mem_cons.mp hr with rfl | hmem
                · exact Or.inl ⟨h1, h2⟩
                · exact Or.inr ⟨r, hmem, h1, h2⟩
              · rintro (⟨h1, h2⟩ | ⟨r, hmem, h1, h2⟩)
                · exact ⟨(s, pos), List.mem_cons_self _ _, h1, h2⟩
                · exact ⟨r, List.mem_cons_of_mem _ hmem, h1, h2⟩
            rw [hcons, (ih (pos+1) i).1]
            constructor
            · rintro (⟨h1, h2⟩ | ⟨h1, h2, h3⟩)
              · exact Or.inl ⟨h1, h2⟩
              · refine Or.inr ⟨by omega, by simp at h2 ⊢; omega, ?_⟩
                rw [show i - pos = (i - (pos+1)) + 1 from by omega,
                  List.getD_cons_succ]
                exact h3
            · rintro (⟨h1, h2⟩ | ⟨h1, h2, h3⟩)
              · exact Or.inl ⟨h1, h2⟩
              · by_cases hip : i = pos
                · subst hip
                  rw [Nat.sub_self, List.getD_cons_zero] at h3
                  cases h3
                · refine Or.inr ⟨by omega, by simp at h2; omega, ?_⟩
                  rw [show i - pos = (i - (pos+1)) + 1 from by omega,
                    List.getD_cons_succ] at h3
                  exact h3

/-! ### Claims -/

/-- C1: round-trip of packing: for every boolean sequence `b`, the bitmap
built by `Bitmap::from_bools(b)` satisfies `get i = some b[i]` for every
`i < len b`, and `get i = none` for every `i ≥ len b`. -/
theorem claim_C1_round_trip (b : List Bool) (i : Nat) :
    (Bitmap.from_bools b).get i =
      if i < b.length then some (b.getD i false) else none := by
  rw [Bitmap.get_eq, from_bools_num_bits]
  by_cases h : i < b.length
  · rw [if_pos h, if_pos h, from_bools_bitAt b i h]
  · rw [if_neg h, if_neg h]

/-- C6: zero-copy identity: for every Bitmap `B` and `k ≤ B.num_bits`,
`B.slice 0 k` succeeds and returns a Bitmap carrying the very same buffer
handle as `B` (the `start_bit == 0` branch clones the `Arc`, allocating and
copying nothing) with bit count `k`. -/
theorem claim_C6_zero_copy (B : Bitmap) (k : Nat) (h : k ≤ B.num_bits) :
    B.slice 0 k = some ⟨B.buf, k⟩ := by
  rw [Bitmap.slice, if_pos (by omega), if_pos rfl]

theorem claim_C6_zero_copy_witness :
    (Bitmap.mk [7] 3).slice 0 2 = some ⟨(Bitmap.mk [7] 3).buf, 2⟩ :=
  claim_C6_zero_copy (Bitmap.mk [7] 3) 2 (by decide)

/-- C7: fail-fast contract violations: `from_buf buf n` panics (modelled
`none`) exactly when `buf.len < ⌈n/8⌉`, and `slice s l` panics exactly when
`s + l > num_bits`; in the successful case nothing is truncated: `from_buf`
keeps the requested buffer and bit count, and `slice` keeps the requested
length. -/
theorem claim_C7_fail_fast :
    (∀ (buf : List Nat) (n : Nat),
      Bitmap.from_buf buf n = none ↔ buf.length < (n + 7) / 8) ∧
    (∀ (B : Bitmap) (s l : Nat),
      B.slice s l = none ↔ B.num_bits < s + l) ∧
    (∀ (buf : List Nat) (n : Nat) (B : Bitmap),
      Bitmap.from_buf buf n = some B → B = ⟨buf, n⟩) ∧
    (∀ (B : Bitmap) (s l : Nat) (B' : Bitmap),
      B.slice s l = some B' → B'.num_bits = l) := by
  refine ⟨?_, ?_, ?_, ?_⟩
  · intro buf n
    rw [Bitmap.from_buf]
    by_cases h : (n + 7) / 8 ≤ buf.length
    · simp [h]
    · simp [h]
      omega
  · intro B s l
    rw [Bitmap.slice]
    by_cases h : s + l ≤ B.num_bits
    · rw [if_pos h]
      by_cases h0 : s = 0
      · simp [h0]; omega
      · simp [h0]; omega
    · rw [if_neg h]
      simp; omega
  · intro buf n B hB
    rw [Bitmap.from_buf] at hB
    by_cases h : (n + 7) / 8 ≤ buf.length
    · rw [if_pos h] at hB
      exact (Option.some.inj hB).symm
    · rw [if_neg h] at hB
      exact absurd hB (by simp)
  · intro B s l B' hB
    rw [Bitmap.slice] at hB
    by_cases h : s + l ≤ B.num_bits
    · rw [if_pos h] at hB
      by_cases h0 : s = 0
      · rw [if_pos h0] at hB
        rw [← Option.some.inj hB]
      · rw [if_neg h0] at hB
        rw [← Option.some.inj hB]
    · rw [if_neg h] at hB
      exact absurd hB (by simp)

theorem claim_C7_fail_fast_witness :
    Bitmap.from_buf [] 1 = none ∧
    (Bitmap.mk [255] 8).slice 4 5 = none ∧
    Bitmap.mk [3] 2 = ⟨[3], 2⟩ ∧
    (Bitmap.mk [255] 8).num_bits = 8 :=
  ⟨(claim_C7_fail_fast.1 [] 1).mpr (by decide),
   (claim_C7_fail_fast.2.1 (Bitmap.mk [255] 8) 4 5).mpr (by decide),
   claim_C7_fail_fast.2.2.1 [3] 2 (Bitmap.mk [3] 2) (by decide),
   claim_C7_fail_fast.2.2.2 (Bitmap.mk [255] 8) 0 8 (Bitmap.mk [255] 8) (by decide)⟩

/-- C8: BitPacker exactness: `from_bools` emits exactly `⌈n/8⌉` bytes, stores
bit `i` at byte `i / 8`, bit position `i % 8` (LSB-first), and when
`n % 8 ≠ 0` the unused high bit positions `n % 8 .. 7` (and beyond) of the
final byte are zero. -/
theorem claim_C8_packer_exact (bools : List Bool) :
    (Bitmap.from_bools bools).buf.length = (bools.length + 7) / 8 ∧
    (∀ i, i < bools.length →
      Nat.testBit (byteAt (Bitmap.from_bools bools).buf (i / 8)) (i % 8) =
        bools.getD i false) ∧
    (bools.length % 8 ≠ 0 → ∀ j, bools.length % 8 ≤ j →
      Nat.testBit (byteAt (Bitmap.from_bools bools).buf (bools.length / 8)) j
        = false) := by
  refine ⟨from_bools_length bools, ?_, ?_⟩
  · intro i hi
    exact from_bools_bitAt bools i hi
  · intro hrem j hj
    rw [byteAt, from_bools_getD_rem bools hrem,
      Nat.mod_eq_of_lt (packByte_lt_256 bools _ _ (by omega)),
      packByte_testBit, if_neg (by omega)]

theorem claim_C8_packer_exact_witness :
    (Bitmap.from_bools [true, true, true]).buf.length = 1 ∧
    Nat.testBit (byteAt (Bitmap.from_bools [true, true, true]).buf 0) 2 = true ∧
    Nat.testBit (byteAt (Bitmap.from_bools [true, true, true]).buf 0) 5 = false :=
  ⟨(claim_C8_packer_exact [true, true, true]).1,
   by rw [(claim_C8_packer_exact [true, true, true]).2.1 2 (by decide)]; decide,
   (claim_C8_packer_exact [true, true, true]).2.2 (by decide) 5 (by decide)⟩

/-- C9: size invariant: every Bitmap produced by `from_buf`, `from_bools`, or
`slice` (from a Bitmap that itself satisfies the invariant) has a buffer of at
least `⌈num_bits/8⌉` bytes. -/
theorem claim_C9_size_invariant :
    (∀ (buf : List Nat) (n : Nat) (B : Bitmap),
      Bitmap.from_buf buf n = some B → B.sizeInv) ∧
    (∀ bools : List Bool, (Bitmap.from_bools bools).sizeInv) ∧
    (∀ (B : Bitmap) (s l : Nat) (B' : Bitmap),
      B.sizeInv → B.slice s l = some B' → B'.sizeInv) := by
  refine ⟨?_, ?_, ?_⟩
  · intro buf n B hB
    rw [Bitmap.from_buf] at hB
    by_cases h : (n + 7) / 8 ≤ buf.length
    · rw [if_pos h] at hB
      rw [← Option.some.inj hB]
      exact h
    · rw [if_neg h] at hB
      exact absurd hB (by simp)
  · intro bools
    rw [Bitmap.sizeInv, from_bools_num_bits, from_bools_length]
  · intro B s l B' hinv hB
    rw [Bitmap.slice] at hB
    by_cases h : s + l ≤ B.num_bits
    · rw [if_pos h] at hB
      by_cases h0 : s = 0
      · rw [if_pos h0] at hB
        rw [← Option.some.inj hB]
        rw [Bitmap.sizeInv] at hinv ⊢
        simp only
        omega
      · rw [if_neg h0] at hB
        rw [← Option.some.inj hB]
        rw [Bitmap.sizeInv]
        simp
    · rw [if_neg h] at hB
      exact absurd hB (by simp)

theorem claim_C9_size_invariant_witness :
    (Bitmap.mk [3] 2).sizeInv ∧ (Bitmap.from_bools [true, false]).sizeInv ∧
    (Bitmap.mk [5] 2).sizeInv :=
  ⟨claim_C9_size_invariant.1 [3] 2 (Bitmap.mk [3] 2) (by decide),
   claim_C9_size_invariant.2.1 [true, false],
   claim_C9_size_invariant.2.2 (Bitmap.from_bools [true, false, true]) 0 2
     (Bitmap.mk [5] 2)
     (claim_C9_size_invariant.2.1 [true, false, true]) (by decide)⟩

/-- C3 counterexample: it is not the case that every output word `k` of
`re_align` equals `(src k >> shift) | (src (k+1) << (64 - shift))`: at
`src = id`, `len = 1`, `shift = 1` the (single, final) output word is
`src 0 >> 1 = 0`, while the claimed formula yields `2^63`. -/
theorem claim_C3_counterexample :
    ¬ (∀ (src : Nat → Nat) (len shift : Nat), 1 ≤ shift → shift ≤ 63 →
        ∀ k, k < len → (re_align src len shift).getD k 0 =
          (src k >>> shift) ||| ((src (k+1) <<< (64 - shift)) % 2^64)) := by
  intro h
  have h1 := h (fun k => k) 1 1 (by omega) (by omega) 0 (by omega)
  revert h1
  decide

/-- C3 (amended): for `shift` in `1..=63`, every output word `k < len - 1`
satisfies `dst k = (src k >> shift) | (src (k+1) << (64 - shift))`, while the
final word is `dst (len-1) = src (len-1) >> shift`; `shift == 0` is an exact
word-for-word copy of the source, and `len == 0` writes nothing. -/
theorem claim_C3_realigner (src : Nat → Nat) (len shift : Nat) :
    (len = 0 → re_align src len shift = []) ∧
    (shift = 0 → re_align src len shift = (List.range len).map src) ∧
    (1 ≤ shift → shift ≤ 63 →
      (∀ k, k + 1 < len → (re_align src len shift).getD k 0 =
        (src k >>> shift) ||| ((src (k+1) <<< (64 - shift)) % 2^64)) ∧
      (1 ≤ len → (re_align src len shift).getD (len - 1) 0 =
        src (len - 1) >>> shift)) := by
  refine ⟨?_, ?_, ?_⟩
  · intro h
    rw [re_align, if_pos h]
  · intro h
    rw [h, re_align_shift_zero]
  · intro h1 _
    exact ⟨fun k hk => re_align_getD_mid src len shift k (by omega) hk,
      fun hl => re_align_getD_last src len shift (by omega) hl⟩

theorem claim_C3_realigner_witness :
    re_align (fun k => k) 0 5 = [] ∧
    re_align (fun k => k) 3 0 = [0, 1, 2] ∧
    (re_align (fun k => k) 3 5).getD 0 0 =
      ((0:Nat) >>> 5) ||| (((1:Nat) <<< 59) % 2^64) ∧
    (re_align (fun k => k) 3 5).getD 2 0 = (2:Nat) >>> 5 :=
  ⟨(claim_C3_realigner (fun k => k) 0 5).1 rfl,
   by rw [(claim_C3_realigner (fun k => k) 3 0).2.1 rfl]; decide,
   (claim_C3_realigner (fun k => k) 3 5).2.2 (by decide) (by decide) |>.1 0 (by decide),
   (claim_C3_realigner (fun k => k) 3 5).2.2 (by decide) (by decide) |>.2 (by decide)⟩

/-- C10: for every `shift` in `1..=63` and `len ≥ 1`, `re_align` writes
exactly `len` words; `dst k = (src k >> shift) | (src (k+1) << (64 - shift))`
for `k < len - 1`; the final word is `src (len-1) >> shift`, so its top
`shift` bits are zero; and the output depends only on the source words
`src 0 .. src (len-1)` (no word past `src (len-1)` is read). -/
theorem claim_C10_realigner_exact (src src' : Nat → Nat) (len shift : Nat)
    (h1 : 1 ≤ shift) (h2 : shift ≤ 63) (h3 : 1 ≤ len) :
    (re_align src len shift).length = len ∧
    (∀ k, k + 1 < len → (re_align src len shift).getD k 0 =
      (src k >>> shift) ||| ((src (k+1) <<< (64 - shift)) % 2^64)) ∧
    (re_align src len shift).getD (len - 1) 0 = src (len - 1) >>> shift ∧
    (∀ j, src (len - 1) < 2 ^ 64 → 64 - shift ≤ j →
      Nat.testBit ((re_align src len shift).getD (len - 1) 0) j = false) ∧
    ((∀ k, k < len → src k = src' k) →
      re_align src len shift = re_align src' len shift) := by
  refine ⟨re_align_length src len shift,
    fun k hk => re_align_getD_mid src len shift k (by omega) hk,
    re_align_getD_last src len shift (by omega) h3, ?_, ?_⟩
  · intro j hsrc hj
    rw [re_align_getD_last src len shift (by omega) h3, Nat.testBit_shiftRight]
    exact testBit_of_lt_two_pow_le hsrc (by omega)
  · intro hagree
    rw [re_align, re_align, if_neg (by omega), if_neg (by omega),
      if_neg (by omega), if_neg (by omega), hagree (len - 1) (by omega)]
    have hmap : (List.range (len - 1)).map
        (fun k => (src k >>> shift) ||| ((src (k+1) <<< (64 - shift)) % 2^64)) =
        (List.range (len - 1)).map
        (fun k => (src' k >>> shift) ||| ((src' (k+1) <<< (64 - shift)) % 2^64)) := by
      refine List.map_congr_left (fun k hk => ?_)
      rw [List.mem_range] at hk
      rw [hagree k (by omega), hagree (k+1) (by omega)]
    rw [hmap]

theorem claim_C10_realigner_exact_witness :
    (re_align (fun k => k) 3 5).length = 3 ∧
    (re_align (fun k => k) 3 5).getD 1 0 =
      ((1:Nat) >>> 5) ||| (((2:Nat) <<< 59) % 2^64) ∧
    (re_align (fun k => k) 3 5).getD 2 0 = (2:Nat) >>> 5 ∧
    Nat.testBit ((re_align (fun k => k) 3 5).getD 2 0) 60 = false ∧
    re_align (fun k => k) 3 5 = re_align (fun k => min k 2) 3 5 := by
  have h := claim_C10_realigner_exact (fun k => k) (fun k => min k 2) 3 5
    (by decide) (by decide) (by decide)
  exact ⟨h.1, h.2.1 1 (by decide), h.2.2.1, h.2.2.2.1 60 (by decide) (by decide),
    h.2.2.2.2 (fun k hk => by show k = min k 2; omega)⟩

/-- C2: slice correctness: for every Bitmap `B` with `n` bits, every
`offset ≤ n` and every `i < n - offset`,
`B.slice offset (n - offset) |>.get i` equals `B.get (i + offset)`. -/
theorem claim_C2_slice_correctness (B : Bitmap) (offset i : Nat) (B' : Bitmap)
    (h1 : offset ≤ B.num_bits) (h2 : i < B.num_bits - offset)
    (hs : B.slice offset (B.num_bits - offset) = some B') :
    B'.get i = B.get (i + offset) := by
  have hle : offset + (B.num_bits - offset) ≤ B.num_bits := by omega
  by_cases h0 : offset = 0
  · subst h0
    rw [Bitmap.slice, if_pos hle, if_pos rfl] at hs
    obtain rfl := Option.some.inj hs
    rw [Bitmap.get_eq, Bitmap.get_eq, if_pos (by simpa using h2), if_pos (by omega)]
    simp
  · rw [Bitmap.slice, if_pos hle, if_neg h0] at hs
    obtain rfl := Option.some.inj hs
    rw [Bitmap.get_eq, Bitmap.get_eq, if_pos (by simpa using h2), if_pos (by omega)]
    have := slice_newbuf_bitAt B.buf offset (B.num_bits - offset) i h2
    simp only at this ⊢
    rw [this, Nat.add_comm offset i]

theorem claim_C2_slice_correctness_witness :
    (Bitmap.mk [89] 7).get 2 =
      (Bitmap.from_bools [true, false, true, true, false,
        false, true, true, false, true]).get (2 + 3) :=
  claim_C2_slice_correctness
    (Bitmap.from_bools [true, false, true, true, false, false, true, true, false, true])
    3 2 (Bitmap.mk [89] 7) (by decide) (by decide) (by decide)

/-- C4 counterexample: the span handed to the range scanner is not the byte
length rounded up to the next 64-bit (8-byte) boundary: for a 1-byte buffer
the code's `next_multiple_of(64)` gives 64 bytes, not 8. -/
theorem claim_C4_counterexample :
    ¬ (∀ B : Bitmap, B.set_ranges_span = nextMultipleOf B.buf.length 8) := by
  intro h
  have hB := h (Bitmap.mk [0] 1)
  revert hB
  decide

/-- C4 (amended): for every Bitmap with `bit_count > 0`, `set_ranges` invokes
the range scanner over a span of `64 * ⌈L/64⌉` bytes — the buffer's byte
length `L` rounded up to the next multiple of 64 **bytes** (not the next
64-bit boundary) — and for `bit_count == 0` it returns an empty list without
invoking the scanner. -/
theorem claim_C4_scan_span (B : Bitmap) :
    (0 < B.num_bits →
      B.set_ranges = set_ranges_model B.buf B.set_ranges_span ∧
      B.set_ranges_span = 64 * ((B.buf.length + 63) / 64) ∧
      64 ∣ B.set_ranges_span ∧
      B.buf.length ≤ B.set_ranges_span ∧
      B.set_ranges_span < B.buf.length + 64) ∧
    (B.num_bits = 0 → B.set_ranges = []) := by
  constructor
  · intro h
    refine ⟨by rw [Bitmap.set_ranges, if_neg (by omega)], ?_, ?_, ?_, ?_⟩
    · rw [Bitmap.set_ranges_span, nextMultipleOf]
      omega
    · exact ⟨(B.buf.length + 64 - 1) / 64, Nat.mul_comm _ _⟩
    · rw [Bitmap.set_ranges_span, nextMultipleOf]
      omega
    · rw [Bitmap.set_ranges_span, nextMultipleOf]
      omega
  · intro h
    rw [Bitmap.set_ranges, if_pos h]

theorem claim_C4_scan_span_witness :
    (Bitmap.mk [141] 8).set_ranges = set_ranges_model [141] 64 ∧
    (Bitmap.mk [141] 8).set_ranges_span = 64 ∧
    (Bitmap.mk [141] 0).set_ranges = [] :=
  ⟨by rw [((claim_C4_scan_span (Bitmap.mk [141] 8)).1 (by decide)).1]; rfl,
   by rw [((claim_C4_scan_span (Bitmap.mk [141] 8)).1 (by decide)).2.1]; rfl,
   (claim_C4_scan_span (Bitmap.mk [141] 0)).2 rfl⟩

/-- C5: range scan soundness and completeness: `set_ranges` is sorted
ascending, pairwise disjoint and non-adjacent (each range ends strictly
before the next starts); every returned `(s, e)` is a nonempty run of set
bits whose neighbouring bits (`s-1` if it exists, `e` if within the scanned
span) are unset; and the union of the ranges is exactly the set of set bits
in the scanned span. -/
theorem claim_C5_range_scan (B : Bitmap) :
    List.Pairwise (fun r r' : Nat × Nat => r.2 < r'.1) B.set_ranges ∧
    (∀ r ∈ B.set_ranges, r.1 < r.2 ∧
      (∀ i, r.1 ≤ i → i < r.2 → bitAt B.buf i = true) ∧
      (0 < r.1 → bitAt B.buf (r.1 - 1) = false) ∧
      (r.2 < B.scannedBits → bitAt B.buf r.2 = false)) ∧
    (∀ i, i < B.scannedBits →
      (bitAt B.buf i = true ↔ ∃ r ∈ B.set_ranges, r.1 ≤ i ∧ i < r.2)) := by
  rw [Bitmap.set_ranges, Bitmap.scannedBits]
  by_cases h0 : B.num_bits = 0
  · rw [if_pos h0, if_pos h0]
    simp
  · rw [if_neg h0, if_neg h0, set_ranges_model]
    have hgood := (scanAux_good
      ((List.range (8 * B.set_ranges_span)).map (fun i => bitAt B.buf i)) 0).1
    have hcov : ∀ i, covers (scanAux
        ((List.range (8 * B.set_ranges_span)).map (fun i => bitAt B.buf i)) 0 none) i ↔
        i < 8 * B.set_ranges_span ∧ bitAt B.buf i = true := by
      intro i
      rw [(scanAux_covers _ 0 i).1]
      constructor
      · rintro ⟨_, h2, h3⟩
        rw [Nat.sub_zero] at h2 h3
        have hlen : i < 8 * B.set_ranges_span := by simpa using h2
        rw [getD_map_range _ _ _ _ hlen] at h3
        exact ⟨hlen, h3⟩
      · rintro ⟨h2, h3⟩
        refine ⟨Nat.zero_le i, ?_, ?_⟩
        · rw [Nat.sub_zero]
          simpa using h2
        · rw [Nat.sub_zero, getD_map_range _ _ _ _ h2]
          exact h3
    refine ⟨goodFrom_pairwise hgood, ?_, ?_⟩
    · intro r hr
      have hmem := goodFrom_mem hgood hr
      have hbound : r.2 ≤ 8 * B.set_ranges_span := by
        have hc : covers (scanAux _ 0 none) (r.2 - 1) := ⟨r, hr, by omega, by omega⟩
        have := (hcov (r.2 - 1)).1 hc
        omega
      refine ⟨hmem.2, ?_, ?_, ?_⟩
      · intro i hi1 hi2
        exact ((hcov i).1 ⟨r, hr, hi1, hi2⟩).2
      · intro hpos
        by_contra hbit
        rw [Bool.not_eq_false] at hbit
        obtain ⟨r', hr', ha, hb⟩ := (hcov (r.1 - 1)).2 ⟨by omega, hbit⟩
        by_cases hrr : r = r'
        · subst hrr
          omega
        · rcases goodFrom_distinct hgood hr hr' hrr with h | h <;> omega
      · intro hlt
        by_contra hbit
        rw [Bool.not_eq_false] at hbit
        obtain ⟨r', hr', ha, hb⟩ := (hcov r.2).2 ⟨by omega, hbit⟩
        by_cases hrr : r = r'
        · subst hrr
          omega
        · rcases goodFrom_distinct hgood hr hr' hrr with h | h <;> omega
    · intro i hi
      constructor
      · intro hbit
        exact (hcov i).2 ⟨hi, hbit⟩
      · intro hc
        exact ((hcov i).1 hc).2

theorem claim_C5_range_scan_witness :
    (Bitmap.from_bools [true, false, true, true, false, false, false, true]).set_ranges
      = [(0, 1), (2, 4), (7, 8)] ∧
    bitAt (Bitmap.from_bools [true, false, true, true, false, false, false, true]).buf 3
      = true ∧
    bitAt (Bitmap.from_bools [true, false, true, true, false, false, false, true]).buf 4
      = false :=
  ⟨by decide,
   ((claim_C5_range_scan
      (Bitmap.from_bools [true, false, true, true, false, false, false, true])).2.1
      (2, 4) (by decide)).2.1 3 (by decide) (by decide),
   ((claim_C5_range_scan
      (Bitmap.from_bools [true, false, true, true, false, false, false, true])).2.1
      (2, 4) (by decide)).2.2.2 (by decide)⟩

end ArrsBitmap
